import Mathlib

/-!
A shallow embedding of the data-generation core of `init_db.py`: the age-band
classifier, the per-user performance model (`UserPerformance`), the activity
timeline generator (`generate_activities`), the random-timestamp helper and
the buddy-graph generator (`generate_buddies` / `pop_users`).

Modelling conventions:
* instants (`datetime.datetime`) are seconds since the Unix epoch (`Nat`),
  with a fixed linear timescale (UTC, no DST); calendar dates obtained from
  an instant are day numbers `t / 86400` (days since 1970-01-01);
* `datetime.date` components (as used by the age-band classifier) are an
  explicit `(year, month, day)` record, and the implicit `date.today()` of
  the source is passed as an explicit `today` argument;
* real-valued quantities (`mu`, `sigma`, trend factors) are rationals;
* the global `random` module is an explicit stream of draws (`Rng`): each
  primitive draw consumes one position of an integer stream or a rational
  stream; `random.choice(l)` picks index `r % l.length`, `randrange(a, b)`
  yields `a + r % (b - a)`, `randint(a, b)` yields `a + r % (b - a + 1)`,
  and `random.gauss(mu, sigma)` is `mu + sigma * z` for a stream-supplied
  standard-normal draw `z : ℚ`;
* `random.shuffle` output is an arbitrary list, so theorems quantify over
  the shuffled pool.
-/

/-! ### Calendar: civil dates and ISO week numbers

`timestamp.isocalendar()[1]` of the Python standard library.  Day number 0 is
1970-01-01 (a Thursday).  `civil` converts a day number to a Gregorian
`(year, month, day)` triple and `daysFromCivil` is its inverse (for dates at
or after 1970), using the standard era-based conversion. -/

/-- Gregorian `(year, month, day)` of day number `n` (days since 1970-01-01). -/
def civil (n : Nat) : Nat × Nat × Nat :=
  let z := n + 719468
  let era := z / 146097
  let doe := z % 146097
  let yoe := (doe - doe / 1460 + doe / 36524 - doe / 146096) / 365
  let y := yoe + era * 400
  let doy := doe - (365 * yoe + yoe / 4 - yoe / 100)
  let mp := (5 * doy + 2) / 153
  let d := doy - (153 * mp + 2) / 5 + 1
  let m := if mp < 10 then mp + 3 else mp - 9
  (if m ≤ 2 then y + 1 else y, m, d)

/-- Day number (days since 1970-01-01) of the Gregorian date `(y, m, d)`;
valid for dates at or after 1970-01-01. -/
def daysFromCivil (y m d : Nat) : Nat :=
  let y2 := if m ≤ 2 then y - 1 else y
  let era := y2 / 400
  let yoe := y2 % 400
  let mp := if 2 < m then m - 3 else m + 9
  let doy := (153 * mp + 2) / 5 + d - 1
  let doe := yoe * 365 + yoe / 4 - yoe / 100 + doy
  era * 146097 + doe - 719468

/-- Weekday of day number `n`, Monday = 0 (day 0, 1970-01-01, is a Thursday). -/
def weekdayOf (n : Nat) : Nat := (n + 3) % 7

/-- Day number of the Thursday in the Monday-based week containing day `n`. -/
def thursdayOf (n : Nat) : Nat := n + 3 - weekdayOf n

/-- ISO-8601 week number of day number `n`: the ISO week of a date is the
week (Monday-based) of its Thursday, numbered within the Thursday's year. -/
def isoWeek (n : Nat) : Nat :=
  let thu := thursdayOf n
  let y := (civil thu).1
  let doy0 := thu - daysFromCivil y 1 1
  doy0 / 7 + 1

/-- ISO week number of the calendar day of an instant:
`timestamp.isocalendar()[1]`. -/
def isoWeekOfTs (t : Nat) : Nat := isoWeek (t / 86400)

/-! ### Age-band classifier: `age_band_from_dob` -/

/-- A `datetime.date` as its `(year, month, day)` components. -/
structure SimpleDate where
  year : Nat
  month : Nat
  day : Nat
deriving DecidableEq, Repr

/-- Integer age in years on `today` of a person born on `dob`:
`today.year - dob.year - ((today.month, today.day) < (dob.month, dob.day))`,
with Python tuple comparison spelled out lexicographically. -/
def age_of (today dob : SimpleDate) : Int :=
  (today.year : Int) - (dob.year : Int) -
    (if today.month < dob.month ∨ (today.month = dob.month ∧ today.day < dob.day)
     then 1 else 0)

/-- The if/elif ladder of `age_band_from_dob`, as a function of the computed age. -/
def band_of_age (age : Int) : Nat :=
  if age ≤ 15 then 1
  else if age ≤ 25 then 2
  else if age ≤ 35 then 3
  else if age ≤ 45 then 4
  else if age ≤ 55 then 5
  else if age ≤ 65 then 6
  else if age ≤ 75 then 7
  else if age ≤ 85 then 8
  else if age ≤ 95 then 9
  else if age ≤ 105 then 10
  else 11

/-- Return the ageband given a date of birth.  The source reads the reference
date via `datetime.date.today()`; it is passed here as the explicit `today`. -/
def age_band_from_dob (dob today : SimpleDate) : Nat :=
  band_of_age (age_of today dob)

/-! ### Performance model constants -/

/-- Choose a random mean (average) performance per user from this list. -/
def PERFORMANCE_MEANS : List ℚ := [5000, 7500, 10000, 15000]

/-- Choose a random standard deviation per user from this list. -/
def PERFORMANCE_SD : List ℚ := [1000, 1250, 1500]

/-- Choose a random performance trend per user/week from this list. -/
def PERFORMANCE_TRENDS : List ℚ := [0.8, 1, 1.2]

/-- Gender of a user. -/
inductive Gender where
  | male
  | female
  | neutral
deriving DecidableEq, Repr

/-- Skew average performance on gender. -/
def GENDER_PERFORMANCE : Gender → ℚ
  | Gender.male => 0.9
  | Gender.female => 1.2
  | Gender.neutral => 1

/-- Skew average performance on age band.  The source is a dict keyed by the
bands 1..11 (a lookup outside that range would be a KeyError; bands are always
in 1..11, so the catch-all branch is unreachable). -/
def AGEBAND_PERFORMANCE : Nat → ℚ
  | 1 => 1.3
  | 2 => 1.1
  | 3 => 0.8
  | 4 => 1.1
  | 5 => 1.2
  | 6 => 1.0
  | 7 => 0.9
  | 8 => 0.8
  | 9 => 0.7
  | 10 => 0.6
  | 11 => 0.6
  | _ => 0

/-! ### Randomness: the global `random` module as explicit draw streams -/

/-- The global RNG as two pure streams of draws (integer-valued and
standard-normal-valued) together with the position of the next draw. -/
structure Rng where
  ints : Nat → Nat
  reals : Nat → ℚ
  k : Nat

/-- Consume one integer draw. -/
def Rng.nextInt (g : Rng) : Nat × Rng := (g.ints g.k, { g with k := g.k + 1 })

/-- Consume one standard-normal draw. -/
def Rng.nextReal (g : Rng) : ℚ × Rng := (g.reals g.k, { g with k := g.k + 1 })

/-- Model of `random.choice(l)`: the element at a stream-chosen index. -/
def listChoice (l : List ℚ) (r : Nat) : ℚ := l.getD (r % l.length) 0

/-- Python `int()` applied to a rational: truncation toward zero. -/
def pyInt (q : ℚ) : Int := q.num.tdiv (q.den : Int)

/-! ### `random_timestamp` -/

/-- Return a random datetime on the same day as `dt` (an instant `t`, in
seconds).  The source sets `start = dt.replace(hour=23, minute=59, second=59)`
and `end = dt.replace(hour=0, minute=0, second=0)` and draws
`random.randrange(int(end.timestamp()), int(start.timestamp()))`, i.e. a
uniform value in `[dayStart, dayStart + 86399)` where `dayStart` is midnight
of the day of `t`; `r` is the raw stream draw behind `randrange`. -/
def random_timestamp (t : Nat) (r : Nat) : Nat :=
  t / 86400 * 86400 + r % 86399

/-! ### `UserPerformance` -/

/-- A generated activity that does not yet have an activity ID. -/
structure Activity where
  room_id : Nat
  user_id : Nat
  timestamp : Nat
  performance : Int
  effort : Nat
deriving DecidableEq, Repr

/-- Per-user performance state (the `UserPerformance` dataclass).  The
`activities` cache (dict keyed by calendar date) is an association list keyed
by day number; `week_number` is an `Int` so the `-1` sentinel is distinct from
every real ISO week number. -/
structure UserPerformance where
  user_id : Nat
  gender : Gender
  dob : SimpleDate
  age_band : Nat
  mu : ℚ
  sigma : ℚ
  week_number : Int
  activities : List (Nat × Activity)
deriving DecidableEq, Repr

/-- Dict lookup in the per-user `activities` cache. -/
def lookupDate : List (Nat × Activity) → Nat → Option Activity
  | [], _ => none
  | (d, a) :: rest, date => if date = d then some a else lookupDate rest date

/-- `UserPerformance(user_id, gender, dob)`: the constructor plus
`__post_init__`, which consumes two draws (`choice(PERFORMANCE_MEANS)` then
`choice(PERFORMANCE_SD)`); `today` is the implicit `date.today()` used by
`age_band_from_dob`. -/
def mkUserPerformance (user_id : Nat) (gender : Gender) (dob : SimpleDate)
    (today : SimpleDate) (g : Rng) : UserPerformance × Rng :=
  let age_band := age_band_from_dob dob today
  let (i, g) := g.nextInt
  let mu := listChoice PERFORMANCE_MEANS i * GENDER_PERFORMANCE gender
              * AGEBAND_PERFORMANCE age_band
  let (j, g) := g.nextInt
  let sigma := listChoice PERFORMANCE_SD j
  (⟨user_id, gender, dob, age_band, mu, sigma, -1, []⟩, g)

/-- Return a new activity for this user for the given timestamp
(`UserPerformance.activity`).  On a cache hit the cached record is returned
with `room_id` replaced and nothing else happens; otherwise the weekly trend
is applied when the ISO week number differs from the stored one, and a fresh
performance (`int(random.gauss(mu, sigma))`) and effort (`random.randint(1,
10)`) are drawn.  Note the source never inserts the new record into
`self.activities`. -/
def UserPerformance.activity (s : UserPerformance) (room_id : Nat) (timestamp : Nat)
    (g : Rng) : Activity × UserPerformance × Rng :=
  let date := timestamp / 86400
  match lookupDate s.activities date with
  | some a => ({ a with room_id := room_id }, s, g)
  | none =>
    let week_number : Int := isoWeekOfTs timestamp
    let (s, g) :=
      if s.week_number ≠ week_number then
        let (r, g) := g.nextInt
        ({ s with week_number := week_number,
                  mu := s.mu * listChoice PERFORMANCE_TRENDS r }, g)
      else (s, g)
    let (z, g) := g.nextReal
    let performance := pyInt (s.mu + s.sigma * z)
    let (e, g) := g.nextInt
    let effort := 1 + e % 10
    (⟨room_id, s.user_id, timestamp, performance, effort⟩, s, g)

/-! ### `generate_activities` -/

/-- One row of the member query driving `generate_activities`: room id, room
creation instant, and the member's user id, gender and date of birth.  The SQL
already restricts to memberships with `departed IS NULL`, so the row list
passed to the generator contains exactly the active memberships. -/
structure MemberRow where
  room_id : Nat
  room_created : Nat
  user_id : Nat
  gender : Gender
  dob : SimpleDate

/-- Number of loop iterations for a room: `(now - room_timestamp).days`,
the floor of the elapsed seconds over 86400 (zero when the creation instant
is not in the past, matching an empty `range`). -/
def elapsedDays (now created : Nat) : Nat := (now - created) / 86400

/-- The per-user state map `users_performance` (a dict keyed by user id). -/
def lookupUser : List (Nat × UserPerformance) → Nat → Option UserPerformance
  | [], _ => none
  | (u, s) :: rest, uid => if uid = u then some s else lookupUser rest uid

/-- Write a user's state back into the map (in Python the dict entry is the
very object that `activity` mutates in place, so reading the state, stepping
it, and storing the result is the same thing). -/
def insertUser : List (Nat × UserPerformance) → Nat → UserPerformance →
    List (Nat × UserPerformance)
  | [], uid, s => [(uid, s)]
  | (u, s0) :: rest, uid, s =>
    if uid = u then (u, s) :: rest else (u, s0) :: insertUser rest uid s

/-- Loop body for one day `day` of one member row: draw the random timestamp
within the day `now - day` days back, call `UserPerformance.activity`, and
append the record. -/
def genDay (room_id : Nat) (now : Nat)
    (acc : List Activity × UserPerformance × Rng) (day : Nat) :
    List Activity × UserPerformance × Rng :=
  let (acts, s, g) := acc
  let (r, g) := g.nextInt
  let ts := random_timestamp (now - day * 86400) r
  let (a, s, g) := s.activity room_id ts g
  (acts ++ [a], s, g)

/-- Process one member row: create the user's `UserPerformance` on first
encounter, then generate one activity per day since the room was created. -/
def genRow (now : Nat) (today : SimpleDate) :
    List Activity × List (Nat × UserPerformance) × Rng → MemberRow →
    List Activity × List (Nat × UserPerformance) × Rng
  | (acts, m, g), row =>
    let sg :=
      match lookupUser m row.user_id with
      | some s => (s, g)
      | none => mkUserPerformance row.user_id row.gender row.dob today g
    let res :=
      (List.range (elapsedDays now row.room_created)).foldl
        (genDay row.room_id now) ([], sg.1, sg.2)
    (acts ++ res.1, insertUser m row.user_id res.2.1, res.2.2)

/-- Generate some activities representing users that have completed the
activity defined in a room (`generate_activities`): fold over the member rows,
threading the `users_performance` map and the RNG.  `now` is the single
`datetime.datetime.now()` reference and `today` the `date.today()` used when
classifying age bands. -/
def generate_activities (rows : List MemberRow) (now : Nat) (today : SimpleDate)
    (g : Rng) : List Activity :=
  (rows.foldl (genRow now today) ([], [], g)).1

/-! ### `generate_buddies` -/

/-- A generated buddy relationship between two users. -/
structure Buddy where
  room_id : Nat
  inviter_id : Nat
  invitee_id : Nat
deriving DecidableEq, Repr

/-- Pop up to `n` users off the END of `ids` (Python `list.pop()` pops the
last element; the `IndexError` branch stops early on an empty list), returning
the popped users in pop order together with the remaining list. -/
def pop_users (ids : List Nat) (n : Nat) : List Nat × List Nat :=
  (ids.reverse.take n, (ids.reverse.drop n).reverse)

/-- Model of `random.randrange(2, 5)`: a batch size in {2, 3, 4}. -/
def batchSize (r : Nat) : Nat := 2 + r % 3

/-- Result of expanding one dequeued group of inviters. -/
structure GroupResult where
  edges : List Buddy
  newGroups : List (List Nat)
  pool : List Nat
  k : Nat

/-- Expand one dequeued group: each inviter in turn draws a batch size, pops
that many invitees from the pool, emits one edge per invitee, and the batch is
enqueued (appended) when non-empty. -/
def processGroup (room : Nat) (σ : Nat → Nat) :
    List Nat → List Nat → Nat → GroupResult
  | [], pool, k => ⟨[], [], pool, k⟩
  | inviter :: g, pool, k =>
    let (inv, pool1) := pop_users pool (batchSize (σ k))
    let r := processGroup room σ g pool1 (k + 1)
    ⟨inv.map (fun v => ⟨room, inviter, v⟩) ++ r.edges,
     (if inv.isEmpty then [] else [inv]) ++ r.newGroups, r.pool, r.k⟩

/-- Size measure of the pending queue: total members plus number of groups. -/
def queueMeasure (q : List (List Nat)) : Nat := (q.map List.length).sum + q.length

/-- Invariant of `processGroup` used for termination: popped users are
conserved (they all land in the new groups) and at most one group is enqueued
per inviter. -/
theorem processGroup_measure (room : Nat) (σ : Nat → Nat) :
    ∀ (g : List Nat) (pool : List Nat) (k : Nat),
      (processGroup room σ g pool k).pool.length +
        queueMeasure (processGroup room σ g pool k).newGroups ≤
      pool.length + g.length := by
  intro g
  induction g with
  | nil => intro pool k; simp [processGroup, queueMeasure]
  | cons inviter g ih =>
    intro pool k
    have h2 : (pop_users pool (batchSize (σ k))).1.length +
        (pop_users pool (batchSize (σ k))).2.length = pool.length := by
      simp [pop_users]
      omega
    have h1 := ih (pop_users pool (batchSize (σ k))).2 (k + 1)
    have hlen : (inviter :: g).length = g.length + 1 := List.length_cons inviter g
    rw [hlen]
    simp only [queueMeasure] at h1 ⊢
    by_cases hinv : (pop_users pool (batchSize (σ k))).1.isEmpty
    · have h0 : (pop_users pool (batchSize (σ k))).1.length = 0 :=
        List.isEmpty_iff_length_eq_zero.mp hinv
      simp only [processGroup, hinv, if_pos, List.nil_append]
      omega
    · simp only [processGroup, hinv, Bool.false_eq_true, if_neg, not_false_iff,
        List.map_append, List.map_cons, List.map_nil, List.sum_append,
        List.sum_cons, List.sum_nil, List.length_append, List.length_cons,
        List.length_nil]
      omega

/-- The breadth-first expansion loop of `generate_buddies` for one room:
`while queue: for inviter in queue.popleft(): ...`.  Terminates because each
step removes one group from the queue and conserves pool-plus-queue mass. -/
def buddyLoop (room : Nat) (σ : Nat → Nat) :
    List (List Nat) → List Nat → Nat → List Buddy
  | [], _, _ => []
  | g :: q, pool, k =>
    let r := processGroup room σ g pool k
    r.edges ++ buddyLoop room σ (q ++ r.newGroups) r.pool r.k
termination_by q pool _ => pool.length + queueMeasure q
decreasing_by
  simp only [queueMeasure, List.map_append, List.sum_append, List.length_append,
    List.map_cons, List.sum_cons, List.length_cons]
  have := processGroup_measure room σ g pool k
  simp only [queueMeasure] at this
  omega

/-- The per-room body of `generate_buddies`: the queue starts as
`deque([[owner]])`, the owner is removed from the pool of invitable users and
the remaining pool is shuffled (`shuffledPool` is the pool after the shuffle;
theorems quantify over it). -/
def generate_buddies_room (room : Nat) (owner : Nat) (shuffledPool : List Nat)
    (σ : Nat → Nat) : List Buddy :=
  buddyLoop room σ [[owner]] shuffledPool 0

/-- Removal of the owner from the room's member list before shuffling:
`if owner in user_ids: user_ids.remove(owner)` (removes the first occurrence
when present). -/
def room_pool (owner : Nat) (member_ids : List Nat) : List Nat :=
  member_ids.erase owner

/-! ### Theorems -/

/-- Closed form of the band ladder: bands advance every ten years after 15,
capped at 11. -/
theorem band_of_age_eq (a : Int) :
    band_of_age a = if a ≤ 15 then 1 else min 11 (2 + (a - 16) / 10) := by
  unfold band_of_age
  split_ifs <;> omega

/-- The band ladder is monotone non-decreasing in age. -/
theorem band_of_age_mono {a b : Int} (h : a ≤ b) : band_of_age a ≤ band_of_age b := by
  have hc : ((band_of_age a : Int)) ≤ (band_of_age b : Int) := by
    rw [band_of_age_eq a, band_of_age_eq b]
    split_ifs <;> omega
  exact_mod_cast hc

/-- Every band the ladder produces lies in 1..11. -/
theorem band_of_age_range (a : Int) : 1 ≤ band_of_age a ∧ band_of_age a ≤ 11 := by
  unfold band_of_age
  split_ifs <;> omega

/-- C4: the age-band classifier is monotonic non-decreasing in age, always
returns a band in 1..11 with the fixed upper bounds 15, 25, ..., 105, maps
age 0 to band 1, maps every age above 105 (including 200) to band 11, and the
age computation subtracts one year exactly when the birthday has not yet been
reached in the reference year. -/
theorem ageband_classifier_ok :
    (∀ today d1 d2 : SimpleDate, age_of today d1 ≤ age_of today d2 →
      age_band_from_dob d1 today ≤ age_band_from_dob d2 today) ∧
    band_of_age 0 = 1 ∧
    (∀ a : Int, 105 < a → band_of_age a = 11) ∧
    band_of_age 200 = 11 ∧
    (∀ dob today : SimpleDate,
      1 ≤ age_band_from_dob dob today ∧ age_band_from_dob dob today ≤ 11) ∧
    (∀ today dob : SimpleDate,
      (¬(today.month < dob.month ∨ (today.month = dob.month ∧ today.day < dob.day)) →
        age_of today dob = (today.year : Int) - dob.year) ∧
      ((today.month < dob.month ∨ (today.month = dob.month ∧ today.day < dob.day)) →
        age_of today dob = (today.year : Int) - dob.year - 1)) := by
  refine ⟨?_, by decide, ?_, by decide, ?_, ?_⟩
  · intro today d1 d2 h
    exact band_of_age_mono h
  · intro a ha
    unfold band_of_age
    split_ifs <;> omega
  · intro dob today
    exact band_of_age_range (age_of today dob)
  · intro today dob
    constructor <;> intro h <;> simp [age_of, h]

/-- Concrete instantiation of the age-band theorem: a 26-year-old maps to a
lower band than a 76-year-old, and age 200 maps to band 11. -/
theorem ageband_classifier_ok_witness :
    (age_of ⟨2026, 10, 12⟩ ⟨2000, 1, 1⟩ ≤ age_of ⟨2026, 10, 12⟩ ⟨1950, 1, 1⟩ ∧
      age_band_from_dob ⟨2000, 1, 1⟩ ⟨2026, 10, 12⟩ ≤
        age_band_from_dob ⟨1950, 1, 1⟩ ⟨2026, 10, 12⟩) ∧
    ((105 : Int) < 200 ∧ band_of_age 200 = 11) :=
  ⟨⟨by decide, ageband_classifier_ok.1 ⟨2026, 10, 12⟩ ⟨2000, 1, 1⟩ ⟨1950, 1, 1⟩ (by decide)⟩,
   ⟨by decide, ageband_classifier_ok.2.2.1 200 (by decide)⟩⟩

/-- C2 (amended): `random_timestamp` returns an instant on the same calendar
day as its argument, and the results range exactly over the window 00:00:00
up to and including 23:59:58: every such second is achievable for some draw,
and no result leaves the day.  (23:59:59 itself is excluded because
`random.randrange` excludes its upper bound.) -/
theorem random_timestamp_same_day :
    (∀ t r : Nat, random_timestamp t r / 86400 = t / 86400) ∧
    (∀ t s : Nat, s ≤ 86398 → ∃ r : Nat,
      random_timestamp t r = t / 86400 * 86400 + s) := by
  constructor
  · intro t r
    unfold random_timestamp
    have h : r % 86399 < 86399 := Nat.mod_lt _ (by omega)
    omega
  · intro t s hs
    refine ⟨s, ?_⟩
    unfold random_timestamp
    rw [Nat.mod_eq_of_lt (by omega)]

/-- C2 counterexample: the last second of the day, 23:59:59, is not a possible
result of `random_timestamp` (shown on the day of instant 86400, whose final
second is instant 172799), because `randrange` excludes its upper bound. -/
theorem random_timestamp_no_235959 :
    ¬ ∃ r : Nat, random_timestamp 86400 r = 172799 := by
  rintro ⟨r, h⟩
  unfold random_timestamp at h
  have : r % 86399 < 86399 := Nat.mod_lt _ (by omega)
  omega

/-- Concrete instantiation of the amended C2 theorem: second 86398 of the day
(23:59:58) is achievable on the day of instant 86400. -/
theorem random_timestamp_same_day_witness :
    (86398 : Nat) ≤ 86398 ∧
      ∃ r : Nat, random_timestamp 86400 r = 86400 / 86400 * 86400 + 86398 :=
  ⟨Nat.le_refl _, random_timestamp_same_day.2 86400 86398 (Nat.le_refl _)⟩

/-- C8: a room whose invitable pool is empty after removing the owner (in
particular a room whose membership is the owner alone) yields zero buddy
edges, and the generator returns normally. -/
theorem buddies_empty_pool :
    ∀ (room owner : Nat) (σ : Nat → Nat),
      generate_buddies_room room owner [] σ = [] ∧
      room_pool owner [owner] = [] := by
  intro room owner σ
  constructor
  · unfold generate_buddies_room
    rw [buddyLoop]
    simp [processGroup, pop_users, buddyLoop]
  · simp [room_pool]

/-- C10: on a cache hit (the call date is a key of the per-user cache),
`UserPerformance.activity` returns the cached record with only `room_id`
replaced, leaves the whole state (including the cache) unchanged, and
consumes no randomness: the result is the patched record together with the
unchanged state and unchanged RNG, fully determined by state and arguments. -/
theorem activity_cache_hit (s : UserPerformance) (room t : Nat) (g : Rng)
    (a : Activity) (h : lookupDate s.activities (t / 86400) = some a) :
    s.activity room t g = ({ a with room_id := room }, s, g) := by
  unfold UserPerformance.activity
  simp only [h]

/-- Concrete instantiation of the cache-hit theorem. -/
theorem activity_cache_hit_witness :
    (lookupDate [(19793, (⟨1, 7, 1710158400, 9000, 4⟩ : Activity))] (1710158400 / 86400)
      = some ⟨1, 7, 1710158400, 9000, 4⟩) ∧
    (⟨7, Gender.male, ⟨1990, 6, 15⟩, 3, 10000, 1000, 11,
        [(19793, ⟨1, 7, 1710158400, 9000, 4⟩)]⟩ : UserPerformance).activity
        2 1710158400 ⟨fun _ => 0, fun _ => 0, 0⟩ =
      (⟨2, 7, 1710158400, 9000, 4⟩,
       ⟨7, Gender.male, ⟨1990, 6, 15⟩, 3, 10000, 1000, 11,
        [(19793, ⟨1, 7, 1710158400, 9000, 4⟩)]⟩,
       ⟨fun _ => 0, fun _ => 0, 0⟩) :=
  ⟨by decide,
   activity_cache_hit
     ⟨7, Gender.male, ⟨1990, 6, 15⟩, 3, 10000, 1000, 11,
      [(19793, ⟨1, 7, 1710158400, 9000, 4⟩)]⟩
     2 1710158400 ⟨fun _ => 0, fun _ => 0, 0⟩
     ⟨1, 7, 1710158400, 9000, 4⟩ (by decide)⟩

/-- Explicit result of `UserPerformance.activity` on a cache miss: when the
stored week number differs from the timestamp's ISO week number, the trend
draw, the gauss draw and the effort draw are consumed in that order; otherwise
only the gauss and effort draws are consumed. -/
theorem activity_miss_eq (s : UserPerformance) (room t : Nat) (g : Rng)
    (h : lookupDate s.activities (t / 86400) = none) :
    s.activity room t g =
      if s.week_number ≠ (isoWeekOfTs t : Int) then
        (⟨room, s.user_id, t,
           pyInt (s.mu * listChoice PERFORMANCE_TRENDS (g.ints g.k)
                  + s.sigma * g.reals (g.k + 1)),
           1 + g.ints (g.k + 2) % 10⟩,
         { s with week_number := (isoWeekOfTs t : Int),
                  mu := s.mu * listChoice PERFORMANCE_TRENDS (g.ints g.k) },
         ⟨g.ints, g.reals, g.k + 3⟩)
      else
        (⟨room, s.user_id, t, pyInt (s.mu + s.sigma * g.reals g.k),
           1 + g.ints (g.k + 1) % 10⟩,
         s, ⟨g.ints, g.reals, g.k + 2⟩) := by
  unfold UserPerformance.activity
  simp only [h]
  by_cases hw : s.week_number ≠ (isoWeekOfTs t : Int)
  · simp [hw, Rng.nextInt, Rng.nextReal]
  · simp [hw, Rng.nextInt, Rng.nextReal]

/-- Truncation of an integer-valued rational recovers the integer. -/
theorem pyInt_natCast (n : ℕ) : pyInt (n : ℚ) = n := by
  simp [pyInt]

/-- Truncation of an integer-valued rational recovers the integer. -/
theorem pyInt_intCast (n : Int) : pyInt (n : ℚ) = n := by
  simp [pyInt]

/-- A `random.choice` from a non-empty list is an element of the list. -/
theorem listChoice_mem (l : List ℚ) (r : Nat) (hl : l ≠ []) : listChoice l r ∈ l := by
  unfold listChoice
  have hlen : 0 < l.length := List.length_pos.mpr hl
  have hlt : r % l.length < l.length := Nat.mod_lt _ hlen
  rw [List.getD_eq_getElem l 0 hlt]
  exact List.getElem_mem hlt

/-- C3 (amended): on a cache-miss call, `mu` and the stored week number are
unchanged when the timestamp's ISO week number equals the stored one, and
exactly when it differs (in either direction) the stored week number is
replaced and `mu` is multiplied by a randomly chosen trend factor from
`PERFORMANCE_TRENDS`; the drift is multiplicative, hence cumulative. -/
theorem weekly_trend_drift (s : UserPerformance) (room t : Nat) (g : Rng)
    (h : lookupDate s.activities (t / 86400) = none) :
    (s.week_number = (isoWeekOfTs t : Int) →
       (s.activity room t g).2.1.mu = s.mu ∧
       (s.activity room t g).2.1.week_number = s.week_number) ∧
    (s.week_number ≠ (isoWeekOfTs t : Int) →
       (s.activity room t g).2.1.week_number = (isoWeekOfTs t : Int) ∧
       ∃ f ∈ PERFORMANCE_TRENDS, (s.activity room t g).2.1.mu = s.mu * f) := by
  rw [activity_miss_eq s room t g h]
  constructor
  · intro hw
    rw [if_neg (by simp [hw])]
    exact ⟨rfl, rfl⟩
  · intro hw
    rw [if_pos hw]
    refine ⟨rfl, listChoice PERFORMANCE_TRENDS (g.ints g.k), ?_, rfl⟩
    exact listChoice_mem _ _ (by simp [PERFORMANCE_TRENDS])

/-- Concrete instantiation of the weekly-trend theorem: a same-week call
leaves `mu` untouched. -/
theorem weekly_trend_drift_witness :
    (lookupDate ([] : List (Nat × Activity)) (1710158400 / 86400) = none) ∧
    ((11 : Int) = (isoWeekOfTs 1710158400 : Int) →
      ((⟨7, Gender.male, ⟨1990, 6, 15⟩, 3, 10000, 1000, 11, []⟩ :
          UserPerformance).activity 1 1710158400
          ⟨fun _ => 0, fun _ => 0, 0⟩).2.1.mu = 10000 ∧
      ((⟨7, Gender.male, ⟨1990, 6, 15⟩, 3, 10000, 1000, 11, []⟩ :
          UserPerformance).activity 1 1710158400
          ⟨fun _ => 0, fun _ => 0, 0⟩).2.1.week_number = 11) :=
  ⟨rfl,
   (weekly_trend_drift
     ⟨7, Gender.male, ⟨1990, 6, 15⟩, 3, 10000, 1000, 11, []⟩
     1 1710158400 ⟨fun _ => 0, fun _ => 0, 0⟩ rfl).1⟩

/-- C3 counterexample: with the stored week number 11 and a cache-miss call
whose timestamp (2024-03-04) lies in ISO week 10, the week number has not
advanced past the stored one, yet `mu` is changed (multiplied by the drawn
trend factor 0.8): the trend fires whenever the week number differs, not only
when it advances. -/
theorem weekly_trend_fires_on_regress :
    ((⟨7, Gender.male, ⟨1990, 6, 15⟩, 3, 10000, 1000, 11, []⟩ :
        UserPerformance).activity 1 1709553600
        ⟨fun _ => 0, fun _ => 0, 0⟩).2.1.mu ≠ (10000 : ℚ) ∧
    (isoWeekOfTs 1709553600 : Int) < 11 := by
  constructor
  · rw [activity_miss_eq ⟨7, Gender.male, ⟨1990, 6, 15⟩, 3, 10000, 1000, 11, []⟩
      1 1709553600 ⟨fun _ => 0, fun _ => 0, 0⟩ rfl, if_pos (by decide)]
    show (10000 : ℚ) * listChoice PERFORMANCE_TRENDS 0 ≠ 10000
    norm_num [listChoice, PERFORMANCE_TRENDS]
  · decide

/-- C1: evaluation of the missing-cache defect.  Starting from a fresh state
(empty cache), two consecutive calls for the same user and the same calendar
date but different rooms return different performance values, and the first
call leaves the cache empty — the source never stores the generated activity,
so the cache-hit branch that would copy it to the second room never runs. -/
theorem cross_room_resamples :
    ((⟨7, Gender.male, ⟨1990, 6, 15⟩, 3, 10000, 1000, -1, []⟩ :
        UserPerformance).activity 1 1710158400 ⟨fun _ => 1, fun k => (k : ℚ), 0⟩ =
      (⟨1, 7, 1710158400, 11000, 2⟩,
       ⟨7, Gender.male, ⟨1990, 6, 15⟩, 3, 10000, 1000, 11, []⟩,
       ⟨fun _ => 1, fun k => (k : ℚ), 3⟩)) ∧
    ((⟨7, Gender.male, ⟨1990, 6, 15⟩, 3, 10000, 1000, 11, []⟩ :
        UserPerformance).activity 2 1710158400 ⟨fun _ => 1, fun k => (k : ℚ), 3⟩ =
      (⟨2, 7, 1710158400, 13000, 2⟩,
       ⟨7, Gender.male, ⟨1990, 6, 15⟩, 3, 10000, 1000, 11, []⟩,
       ⟨fun _ => 1, fun k => (k : ℚ), 5⟩)) ∧
    (11000 : Int) ≠ 13000 := by
  have hperf1 : pyInt ((10000 : ℚ) * listChoice PERFORMANCE_TRENDS 1
      + 1000 * ((1 : ℕ) : ℚ)) = (11000 : Int) := by
    have harg : (10000 : ℚ) * listChoice PERFORMANCE_TRENDS 1
        + 1000 * ((1 : ℕ) : ℚ) = (((11000 : Int)) : ℚ) := by
      norm_num [listChoice, PERFORMANCE_TRENDS]
    rw [harg, pyInt_intCast]
  have hmu : (10000 : ℚ) * listChoice PERFORMANCE_TRENDS 1 = 10000 := by
    norm_num [listChoice, PERFORMANCE_TRENDS]
  have hperf2 : pyInt ((10000 : ℚ) + 1000 * ((3 : ℕ) : ℚ)) = (13000 : Int) := by
    have harg : (10000 : ℚ) + 1000 * ((3 : ℕ) : ℚ) = (((13000 : Int)) : ℚ) := by
      norm_num
    rw [harg, pyInt_intCast]
  refine ⟨?_, ?_, by decide⟩
  · rw [activity_miss_eq ⟨7, Gender.male, ⟨1990, 6, 15⟩, 3, 10000, 1000, -1, []⟩
      1 1710158400 ⟨fun _ => 1, fun k => (k : ℚ), 0⟩ rfl, if_pos (by decide)]
    show ((⟨1, 7, 1710158400,
        pyInt ((10000 : ℚ) * listChoice PERFORMANCE_TRENDS 1 + 1000 * ((1 : ℕ) : ℚ)),
        2⟩ : Activity),
      (⟨7, Gender.male, ⟨1990, 6, 15⟩, 3,
        (10000 : ℚ) * listChoice PERFORMANCE_TRENDS 1, 1000,
        ((isoWeekOfTs 1710158400 : Nat) : Int), []⟩ : UserPerformance),
      (⟨fun _ => 1, fun k => (k : ℚ), 3⟩ : Rng)) =
      ((⟨1, 7, 1710158400, 11000, 2⟩ : Activity),
       (⟨7, Gender.male, ⟨1990, 6, 15⟩, 3, 10000, 1000, 11, []⟩ : UserPerformance),
       (⟨fun _ => 1, fun k => (k : ℚ), 3⟩ : Rng))
    rw [hperf1, hmu]
    have hwk : ((isoWeekOfTs 1710158400 : Nat) : Int) = 11 := by decide
    rw [hwk]
  · rw [activity_miss_eq ⟨7, Gender.male, ⟨1990, 6, 15⟩, 3, 10000, 1000, 11, []⟩
      2 1710158400 ⟨fun _ => 1, fun k => (k : ℚ), 3⟩ rfl, if_neg (by decide)]
    show ((⟨2, 7, 1710158400, pyInt ((10000 : ℚ) + 1000 * ((3 : ℕ) : ℚ)), 2⟩ : Activity),
      (⟨7, Gender.male, ⟨1990, 6, 15⟩, 3, 10000, 1000, 11, []⟩ : UserPerformance),
      (⟨fun _ => 1, fun k => (k : ℚ), 5⟩ : Rng)) =
      ((⟨2, 7, 1710158400, 13000, 2⟩ : Activity),
       (⟨7, Gender.male, ⟨1990, 6, 15⟩, 3, 10000, 1000, 11, []⟩ : UserPerformance),
       (⟨fun _ => 1, fun k => (k : ℚ), 5⟩ : Rng))
    rw [hperf2]

/-- Cache-hit form of `UserPerformance.activity` (helper twin of the C10
statement, shared by the generator proofs). -/
theorem activity_hit_eq (s : UserPerformance) (room t : Nat) (g : Rng)
    (a : Activity) (h : lookupDate s.activities (t / 86400) = some a) :
    s.activity room t g = ({ a with room_id := room }, s, g) := by
  unfold UserPerformance.activity
  simp only [h]

/-- `activity` never changes the cache contents or the user id of the state. -/
theorem activity_state (s : UserPerformance) (room t : Nat) (g : Rng) :
    (s.activity room t g).2.1.activities = s.activities ∧
    (s.activity room t g).2.1.user_id = s.user_id := by
  cases hl : lookupDate s.activities (t / 86400) with
  | none =>
    rw [activity_miss_eq s room t g hl]
    by_cases hw : s.week_number ≠ (isoWeekOfTs t : Int)
    · rw [if_pos hw]; exact ⟨rfl, rfl⟩
    · rw [if_neg hw]; exact ⟨rfl, rfl⟩
  | some a =>
    rw [activity_hit_eq s room t g a hl]
    exact ⟨rfl, rfl⟩

/-- On an empty cache, `activity` stamps the requested room, the state's user
id, and an effort drawn from `randint(1, 10)`, hence in 1..10. -/
theorem activity_fresh (s : UserPerformance) (room t : Nat) (g : Rng)
    (h : s.activities = []) :
    (s.activity room t g).1.room_id = room ∧
    (s.activity room t g).1.user_id = s.user_id ∧
    1 ≤ (s.activity room t g).1.effort ∧ (s.activity room t g).1.effort ≤ 10 := by
  have hl : lookupDate s.activities (t / 86400) = none := by rw [h]; rfl
  rw [activity_miss_eq s room t g hl]
  by_cases hw : s.week_number ≠ (isoWeekOfTs t : Int)
  · rw [if_pos hw]
    refine ⟨rfl, rfl, ?_, ?_⟩
    · show 1 ≤ 1 + g.ints (g.k + 2) % 10
      omega
    · show 1 + g.ints (g.k + 2) % 10 ≤ 10
      have : g.ints (g.k + 2) % 10 < 10 := Nat.mod_lt _ (by omega)
      omega
  · rw [if_neg hw]
    refine ⟨rfl, rfl, ?_, ?_⟩
    · show 1 ≤ 1 + g.ints (g.k + 1) % 10
      omega
    · show 1 + g.ints (g.k + 1) % 10 ≤ 10
      have : g.ints (g.k + 1) % 10 < 10 := Nat.mod_lt _ (by omega)
      omega

/-- Invariant of the `users_performance` map: every stored state has an empty
cache (nothing is ever inserted into a cache) and is keyed by its own user id. -/
def goodMap (m : List (Nat × UserPerformance)) : Prop :=
  ∀ p ∈ m, p.2.activities = [] ∧ p.2.user_id = p.1

/-- Looking up a user in a good map yields a state with empty cache and the
right user id. -/
theorem lookupUser_good {m : List (Nat × UserPerformance)} {uid : Nat}
    {s : UserPerformance} (hm : goodMap m) (h : lookupUser m uid = some s) :
    s.activities = [] ∧ s.user_id = uid := by
  induction m with
  | nil => simp [lookupUser] at h
  | cons p m ih =>
    obtain ⟨u, s0⟩ := p
    unfold lookupUser at h
    by_cases heq : uid = u
    · rw [if_pos heq] at h
      have hss : s0 = s := by injection h
      have hmem := hm (u, s0) (by simp)
      rw [hss] at hmem
      exact ⟨hmem.1, hmem.2.trans heq.symm⟩
    · rw [if_neg heq] at h
      exact ih (fun p hp => hm p (List.mem_cons_of_mem _ hp)) h

/-- Writing a state with empty cache and matching user id back into a good map
keeps the map good. -/
theorem insertUser_good {m : List (Nat × UserPerformance)} {uid : Nat}
    {s : UserPerformance} (hm : goodMap m) (hs : s.activities = [])
    (hu : s.user_id = uid) : goodMap (insertUser m uid s) := by
  induction m with
  | nil =>
    intro p hp
    simp only [insertUser, List.mem_singleton] at hp
    subst hp
    exact ⟨hs, hu⟩
  | cons q m ih =>
    obtain ⟨u, s0⟩ := q
    unfold insertUser
    by_cases heq : uid = u
    · rw [if_pos heq]
      intro p hp
      rcases List.mem_cons.mp hp with hp | hp
      · subst hp
        exact ⟨hs, heq ▸ hu⟩
      · exact hm p (List.mem_cons_of_mem _ hp)
    · rw [if_neg heq]
      intro p hp
      rcases List.mem_cons.mp hp with hp | hp
      · subst hp
        exact hm (u, s0) (by simp)
      · exact ih (fun p hp2 => hm p (List.mem_cons_of_mem _ hp2)) p hp

/-- A fresh `UserPerformance` has an empty cache and the given user id, and
creation consumes exactly the two draws of `__post_init__`. -/
theorem mkUserPerformance_spec (uid : Nat) (gender : Gender) (dob today : SimpleDate)
    (g : Rng) :
    (mkUserPerformance uid gender dob today g).1.activities = [] ∧
    (mkUserPerformance uid gender dob today g).1.user_id = uid :=
  ⟨rfl, rfl⟩

/-- Unfolding of one `genDay` step into explicit projections. -/
theorem genDay_eq (rid now : Nat) (acts : List Activity) (s : UserPerformance)
    (g : Rng) (d : Nat) :
    genDay rid now (acts, s, g) d =
      (acts ++ [(s.activity rid (random_timestamp (now - d * 86400) (g.ints g.k))
          ⟨g.ints, g.reals, g.k + 1⟩).1],
       (s.activity rid (random_timestamp (now - d * 86400) (g.ints g.k))
          ⟨g.ints, g.reals, g.k + 1⟩).2.1,
       (s.activity rid (random_timestamp (now - d * 86400) (g.ints g.k))
          ⟨g.ints, g.reals, g.k + 1⟩).2.2) := rfl

/-- The day loop of one member row: starting from an empty-cache state, it
appends exactly one activity per day, each carrying the requested room id, the
state's user id and an effort in 1..10, and it keeps the cache empty and the
user id fixed. -/
theorem genDay_fold (rid now : Nat) :
    ∀ (l : List Nat) (acts : List Activity) (s : UserPerformance) (g : Rng),
      s.activities = [] →
      ((l.foldl (genDay rid now) (acts, s, g)).1.length = acts.length + l.length) ∧
      (∀ a ∈ (l.foldl (genDay rid now) (acts, s, g)).1,
        a ∈ acts ∨ (a.room_id = rid ∧ a.user_id = s.user_id ∧
          1 ≤ a.effort ∧ a.effort ≤ 10)) ∧
      (l.foldl (genDay rid now) (acts, s, g)).2.1.activities = [] ∧
      (l.foldl (genDay rid now) (acts, s, g)).2.1.user_id = s.user_id := by
  intro l
  induction l with
  | nil =>
    intro acts s g h
    exact ⟨rfl, fun a ha => Or.inl ha, h, rfl⟩
  | cons d l ih =>
    intro acts s g h
    rw [List.foldl_cons, genDay_eq]
    have hA := activity_fresh s rid
      (random_timestamp (now - d * 86400) (g.ints g.k)) ⟨g.ints, g.reals, g.k + 1⟩ h
    have hS := activity_state s rid
      (random_timestamp (now - d * 86400) (g.ints g.k)) ⟨g.ints, g.reals, g.k + 1⟩
    have hS1 : (s.activity rid (random_timestamp (now - d * 86400) (g.ints g.k))
        ⟨g.ints, g.reals, g.k + 1⟩).2.1.activities = [] := by
      rw [hS.1, h]
    have hrec := ih
      (acts ++ [(s.activity rid (random_timestamp (now - d * 86400) (g.ints g.k))
          ⟨g.ints, g.reals, g.k + 1⟩).1])
      (s.activity rid (random_timestamp (now - d * 86400) (g.ints g.k))
          ⟨g.ints, g.reals, g.k + 1⟩).2.1
      (s.activity rid (random_timestamp (now - d * 86400) (g.ints g.k))
          ⟨g.ints, g.reals, g.k + 1⟩).2.2 hS1
    refine ⟨?_, ?_, hrec.2.2.1, hrec.2.2.2.trans hS.2⟩
    · rw [hrec.1]
      simp only [List.length_append, List.length_cons, List.length_nil]
      omega
    · intro a ha
      rcases hrec.2.1 a ha with hmem | hprops
      · rcases List.mem_append.mp hmem with hmem | hmem
        · exact Or.inl hmem
        · rw [List.mem_singleton] at hmem
          subst hmem
          exact Or.inr ⟨hA.1, hA.2.1, hA.2.2⟩
      · exact Or.inr ⟨hprops.1, hprops.2.1.trans hS.2, hprops.2.2⟩

/-- Unfolding of `genRow` when the user is already in the map. -/
theorem genRow_eq_some (now : Nat) (today : SimpleDate) (acts : List Activity)
    (m : List (Nat × UserPerformance)) (g : Rng) (row : MemberRow)
    (s0 : UserPerformance) (hl : lookupUser m row.user_id = some s0) :
    genRow now today (acts, m, g) row =
      (acts ++ ((List.range (elapsedDays now row.room_created)).foldl
          (genDay row.room_id now) ([], s0, g)).1,
       insertUser m row.user_id ((List.range (elapsedDays now row.room_created)).foldl
          (genDay row.room_id now) ([], s0, g)).2.1,
       ((List.range (elapsedDays now row.room_created)).foldl
          (genDay row.room_id now) ([], s0, g)).2.2) := by
  simp only [genRow, hl]

/-- Unfolding of `genRow` on the first encounter of a user. -/
theorem genRow_eq_none (now : Nat) (today : SimpleDate) (acts : List Activity)
    (m : List (Nat × UserPerformance)) (g : Rng) (row : MemberRow)
    (hl : lookupUser m row.user_id = none) :
    genRow now today (acts, m, g) row =
      (acts ++ ((List.range (elapsedDays now row.room_created)).foldl
          (genDay row.room_id now)
          ([], (mkUserPerformance row.user_id row.gender row.dob today g).1,
           (mkUserPerformance row.user_id row.gender row.dob today g).2)).1,
       insertUser m row.user_id ((List.range (elapsedDays now row.room_created)).foldl
          (genDay row.room_id now)
          ([], (mkUserPerformance row.user_id row.gender row.dob today g).1,
           (mkUserPerformance row.user_id row.gender row.dob today g).2)).2.1,
       ((List.range (elapsedDays now row.room_created)).foldl
          (genDay row.room_id now)
          ([], (mkUserPerformance row.user_id row.gender row.dob today g).1,
           (mkUserPerformance row.user_id row.gender row.dob today g).2)).2.2) := by
  simp only [genRow, hl]

/-- One member row appends exactly one activity per elapsed day, each stamped
with the row's room and user and an effort in 1..10, and the state map stays
good. -/
theorem genRow_spec (now : Nat) (today : SimpleDate) (row : MemberRow)
    (acts : List Activity) (m : List (Nat × UserPerformance)) (g : Rng)
    (hm : goodMap m) :
    ∃ block : List Activity,
      (genRow now today (acts, m, g) row).1 = acts ++ block ∧
      block.length = elapsedDays now row.room_created ∧
      (∀ a ∈ block, a.room_id = row.room_id ∧ a.user_id = row.user_id ∧
        1 ≤ a.effort ∧ a.effort ≤ 10) ∧
      goodMap (genRow now today (acts, m, g) row).2.1 := by
  cases hl : lookupUser m row.user_id with
  | some s0 =>
    have hs0 := lookupUser_good hm hl
    rw [genRow_eq_some now today acts m g row s0 hl]
    have hfold := genDay_fold row.room_id now
      (List.range (elapsedDays now row.room_created)) [] s0 g hs0.1
    refine ⟨_, rfl, ?_, ?_, ?_⟩
    · rw [hfold.1]
      simp [List.length_range]
    · intro a ha
      rcases hfold.2.1 a ha with hmem | hprops
      · exact absurd hmem (List.not_mem_nil a)
      · exact ⟨hprops.1, hprops.2.1.trans hs0.2, hprops.2.2⟩
    · exact insertUser_good hm hfold.2.2.1 (hfold.2.2.2.trans hs0.2)
  | none =>
    have hs0 := mkUserPerformance_spec row.user_id row.gender row.dob today g
    rw [genRow_eq_none now today acts m g row hl]
    have hfold := genDay_fold row.room_id now
      (List.range (elapsedDays now row.room_created)) []
      (mkUserPerformance row.user_id row.gender row.dob today g).1
      (mkUserPerformance row.user_id row.gender row.dob today g).2 hs0.1
    refine ⟨_, rfl, ?_, ?_, ?_⟩
    · rw [hfold.1]
      simp [List.length_range]
    · intro a ha
      rcases hfold.2.1 a ha with hmem | hprops
      · exact absurd hmem (List.not_mem_nil a)
      · exact ⟨hprops.1, hprops.2.1.trans hs0.2, hprops.2.2⟩
    · exact insertUser_good hm hfold.2.2.1 (hfold.2.2.2.trans hs0.2)

/-- Test whether an activity belongs to the (room, user) pair. -/
def pairMatch (r u : Nat) (a : Activity) : Bool :=
  decide (a.room_id = r ∧ a.user_id = u)

/-- Test whether a member row belongs to the (room, user) pair. -/
def rowMatch (r u : Nat) (row : MemberRow) : Bool :=
  decide (row.room_id = r ∧ row.user_id = u)

/-- Folding `genRow` over member rows: for each (room, user) pair, the output
gains exactly one record per elapsed day of each matching row, and every
produced record has an effort in 1..10. -/
theorem genRows_fold (now : Nat) (today : SimpleDate) (r u : Nat) :
    ∀ (rows : List MemberRow) (acts : List Activity)
      (m : List (Nat × UserPerformance)) (g : Rng), goodMap m →
      ((rows.foldl (genRow now today) (acts, m, g)).1.countP (pairMatch r u) =
        acts.countP (pairMatch r u) +
        ((rows.filter (rowMatch r u)).map
          (fun row => elapsedDays now row.room_created)).sum) ∧
      (∀ a ∈ (rows.foldl (genRow now today) (acts, m, g)).1,
        a ∈ acts ∨ (1 ≤ a.effort ∧ a.effort ≤ 10)) := by
  intro rows
  induction rows with
  | nil =>
    intro acts m g hm
    exact ⟨by simp, fun a ha => Or.inl ha⟩
  | cons row rows ih =>
    intro acts m g hm
    rw [List.foldl_cons]
    obtain ⟨block, hacc, hlen, hprops, hgood⟩ := genRow_spec now today row acts m g hm
    have hstep : genRow now today (acts, m, g) row =
        ((genRow now today (acts, m, g) row).1,
         (genRow now today (acts, m, g) row).2.1,
         (genRow now today (acts, m, g) row).2.2) := rfl
    rw [hstep, hacc]
    have hrec := ih (acts ++ block) (genRow now today (acts, m, g) row).2.1
      (genRow now today (acts, m, g) row).2.2 hgood
    constructor
    · rw [hrec.1, List.countP_append]
      have hblock : block.countP (pairMatch r u) =
          if rowMatch r u row then elapsedDays now row.room_created else 0 := by
        by_cases hmatch : rowMatch r u row
        · rw [if_pos hmatch]
          rw [← hlen]
          apply List.countP_eq_length.mpr
          intro a ha
          have hp := hprops a ha
          unfold rowMatch at hmatch
          rw [decide_eq_true_eq] at hmatch
          unfold pairMatch
          rw [decide_eq_true_eq]
          exact ⟨hp.1.trans hmatch.1, hp.2.1.trans hmatch.2⟩
        · rw [if_neg hmatch]
          apply List.countP_eq_zero.mpr
          intro a ha
          have hp := hprops a ha
          unfold rowMatch at hmatch
          unfold pairMatch
          rw [decide_eq_true_eq] at hmatch ⊢
          intro hcontra
          exact hmatch ⟨hp.1.symm.trans hcontra.1, hp.2.1.symm.trans hcontra.2⟩
      rw [hblock]
      by_cases hmatch : rowMatch r u row
      · rw [List.filter_cons_of_pos hmatch, List.map_cons, List.sum_cons,
          if_pos hmatch]
        omega
      · rw [List.filter_cons_of_neg (by simpa using hmatch), if_neg hmatch]
        omega
    · intro a ha
      rcases hrec.2 a ha with hmem | hbounds
      · rcases List.mem_append.mp hmem with hmem | hmem
        · exact Or.inl hmem
        · exact Or.inr ((hprops a hmem).2.2)
      · exact Or.inr hbounds

/-- C6: for every (room, member) pair, `generate_activities` emits exactly one
activity record per whole elapsed day in `[0, now - room.created)` of each
member row for that pair — in particular, when the pair occurs in exactly one
row whose room was created `c`, the pair receives exactly
`elapsedDays now c` records (e.g. 3 records per member for a room created
exactly 3 days before `now`). -/
theorem activities_per_member_day :
    (∀ (rows : List MemberRow) (now : Nat) (today : SimpleDate) (g : Rng)
       (r u : Nat),
      (generate_activities rows now today g).countP (pairMatch r u) =
        ((rows.filter (rowMatch r u)).map
          (fun row => elapsedDays now row.room_created)).sum) ∧
    (∀ (rows : List MemberRow) (now : Nat) (today : SimpleDate) (g : Rng)
       (r u c : Nat),
      (rows.filter (rowMatch r u)).map
          (fun row => elapsedDays now row.room_created) = [c] →
      (generate_activities rows now today g).countP (pairMatch r u) = c) := by
  have hbase : ∀ (rows : List MemberRow) (now : Nat) (today : SimpleDate) (g : Rng)
      (r u : Nat),
      (generate_activities rows now today g).countP (pairMatch r u) =
        ((rows.filter (rowMatch r u)).map
          (fun row => elapsedDays now row.room_created)).sum := by
    intro rows now today g r u
    have h := (genRows_fold now today r u rows [] [] g (by intro p hp; cases hp)).1
    unfold generate_activities
    rw [h]
    simp
  refine ⟨hbase, ?_⟩
  intro rows now today g r u c hfilter
  rw [hbase rows now today g r u, hfilter]
  simp

/-- Concrete instantiation of the per-day count: a room created exactly three
days before `now` with two members gives each member exactly three records. -/
theorem activities_per_member_day_witness :
    ((([⟨1, 0, 10, Gender.male, ⟨1990, 1, 1⟩⟩,
        ⟨1, 0, 11, Gender.female, ⟨1995, 1, 1⟩⟩] : List MemberRow).filter
        (rowMatch 1 10)).map (fun row => elapsedDays 259200 row.room_created)
      = [3]) ∧
    (generate_activities
        [⟨1, 0, 10, Gender.male, ⟨1990, 1, 1⟩⟩,
         ⟨1, 0, 11, Gender.female, ⟨1995, 1, 1⟩⟩] 259200 ⟨2026, 10, 12⟩
        ⟨fun _ => 0, fun _ => 0, 0⟩).countP (pairMatch 1 10) = 3 :=
  ⟨by decide,
   activities_per_member_day.2
     [⟨1, 0, 10, Gender.male, ⟨1990, 1, 1⟩⟩,
      ⟨1, 0, 11, Gender.female, ⟨1995, 1, 1⟩⟩] 259200 ⟨2026, 10, 12⟩
     ⟨fun _ => 0, fun _ => 0, 0⟩ 1 10 3 (by decide)⟩

/-- C9: every activity record produced by `UserPerformance.activity` from a
program-reachable state (the cache is never populated, so it is empty) has an
effort in 1..10, and hence so does every record emitted by
`generate_activities`. -/
theorem effort_in_range :
    (∀ (s : UserPerformance) (room t : Nat) (g : Rng), s.activities = [] →
      1 ≤ (s.activity room t g).1.effort ∧ (s.activity room t g).1.effort ≤ 10) ∧
    (∀ (rows : List MemberRow) (now : Nat) (today : SimpleDate) (g : Rng),
      ∀ a ∈ generate_activities rows now today g,
        1 ≤ a.effort ∧ a.effort ≤ 10) := by
  constructor
  · intro s room t g h
    exact (activity_fresh s room t g h).2.2
  · intro rows now today g a ha
    have h := (genRows_fold now today 0 0 rows [] [] g (by intro p hp; cases hp)).2
    unfold generate_activities at ha
    rcases h a ha with hmem | hbounds
    · cases hmem
    · exact hbounds

/-- Concrete instantiation of the effort-range theorem. -/
theorem effort_in_range_witness :
    1 ≤ ((⟨7, Gender.male, ⟨1990, 6, 15⟩, 3, 10000, 1000, -1, []⟩ :
        UserPerformance).activity 1 1710158400
        ⟨fun _ => 0, fun _ => 0, 0⟩).1.effort ∧
    ((⟨7, Gender.male, ⟨1990, 6, 15⟩, 3, 10000, 1000, -1, []⟩ :
        UserPerformance).activity 1 1710158400
        ⟨fun _ => 0, fun _ => 0, 0⟩).1.effort ≤ 10 :=
  effort_in_range.1 ⟨7, Gender.male, ⟨1990, 6, 15⟩, 3, 10000, 1000, -1, []⟩
    1 1710158400 ⟨fun _ => 0, fun _ => 0, 0⟩ rfl

/-- Popping users preserves the pool as a multiset: the invitees together with
the remaining pool are a permutation of the original pool. -/
theorem pop_users_perm (pool : List Nat) (n : Nat) :
    ((pop_users pool n).1 ++ (pop_users pool n).2).Perm pool := by
  unfold pop_users
  refine ((List.Perm.append_left _ (List.reverse_perm _)).trans ?_)
  rw [List.take_append_drop]
  exact List.reverse_perm pool

/-- Conservation through one group expansion: the invitees of the emitted
edges together with the leftover pool are a permutation of the input pool. -/
theorem processGroup_perm (room : Nat) (σ : Nat → Nat) :
    ∀ (g pool : List Nat) (k : Nat),
      ((processGroup room σ g pool k).edges.map Buddy.invitee_id ++
        (processGroup room σ g pool k).pool).Perm pool := by
  intro g
  induction g with
  | nil => intro pool k; exact List.Perm.refl _
  | cons inviter g ih =>
    intro pool k
    show ((((pop_users pool (batchSize (σ k))).1.map
        (fun v => (⟨room, inviter, v⟩ : Buddy)) ++
        (processGroup room σ g (pop_users pool (batchSize (σ k))).2 (k + 1)).edges).map
          Buddy.invitee_id) ++
        (processGroup room σ g (pop_users pool (batchSize (σ k))).2 (k + 1)).pool).Perm
      pool
    rw [List.map_append, List.append_assoc]
    have hbatch : (((pop_users pool (batchSize (σ k))).1.map
        (fun v => (⟨room, inviter, v⟩ : Buddy))).map Buddy.invitee_id) =
        (pop_users pool (batchSize (σ k))).1 := by
      induction (pop_users pool (batchSize (σ k))).1 with
      | nil => rfl
      | cons x xs ihx => simp [ihx]
    rw [hbatch]
    have hrec := ih (pop_users pool (batchSize (σ k))).2 (k + 1)
    exact ((List.Perm.append_left _ hrec).trans
      (pop_users_perm pool (batchSize (σ k))))

/-- Every group enqueued by one expansion is non-empty. -/
theorem processGroup_groups_ne (room : Nat) (σ : Nat → Nat) :
    ∀ (g pool : List Nat) (k : Nat),
      ∀ G ∈ (processGroup room σ g pool k).newGroups, G ≠ [] := by
  intro g
  induction g with
  | nil => intro pool k G hG; cases hG
  | cons inviter g ih =>
    intro pool k G hG
    show G ≠ []
    have hG2 : G ∈ (if (pop_users pool (batchSize (σ k))).1.isEmpty then []
        else [(pop_users pool (batchSize (σ k))).1]) ++
        (processGroup room σ g (pop_users pool (batchSize (σ k))).2 (k + 1)).newGroups :=
      hG
    rcases List.mem_append.mp hG2 with hmem | hmem
    · by_cases hinv : (pop_users pool (batchSize (σ k))).1.isEmpty
      · rw [if_pos hinv] at hmem
        cases hmem
      · rw [if_neg hinv] at hmem
        rw [List.mem_singleton] at hmem
        subst hmem
        exact fun hcontra => hinv (by rw [hcontra]; rfl)
    · exact ih _ _ G hmem

/-- If one expansion of a non-empty group enqueues nothing, the pool was
already empty. -/
theorem processGroup_pool_empty (room : Nat) (σ : Nat → Nat)
    (inviter : Nat) (g pool : List Nat) (k : Nat)
    (h : (processGroup room σ (inviter :: g) pool k).newGroups = []) :
    pool = [] := by
  have hG : (processGroup room σ (inviter :: g) pool k).newGroups =
      (if (pop_users pool (batchSize (σ k))).1.isEmpty then []
        else [(pop_users pool (batchSize (σ k))).1]) ++
      (processGroup room σ g (pop_users pool (batchSize (σ k))).2 (k + 1)).newGroups :=
    rfl
  rw [hG] at h
  have hinv : (pop_users pool (batchSize (σ k))).1.isEmpty := by
    by_contra hinv
    rw [if_neg hinv] at h
    simp at h
  have htake : pool.reverse.take (batchSize (σ k)) = [] :=
    List.isEmpty_iff.mp hinv
  have hb : 2 ≤ batchSize (σ k) := Nat.le_add_right 2 _
  have hrev : pool.reverse = [] := by
    cases hrevc : pool.reverse with
    | nil => rfl
    | cons x xs =>
      rw [hrevc] at htake
      cases hn : batchSize (σ k) with
      | zero => omega
      | succ n2 => rw [hn] at htake; cases htake
  simpa using congrArg List.reverse hrev

/-- Every edge emitted by one expansion carries the requested room id. -/
theorem processGroup_room (room : Nat) (σ : Nat → Nat) :
    ∀ (g pool : List Nat) (k : Nat),
      ∀ e ∈ (processGroup room σ g pool k).edges, e.room_id = room := by
  intro g
  induction g with
  | nil => intro pool k e he; cases he
  | cons inviter g ih =>
    intro pool k e he
    have he2 : e ∈ (pop_users pool (batchSize (σ k))).1.map
        (fun v => (⟨room, inviter, v⟩ : Buddy)) ++
        (processGroup room σ g (pop_users pool (batchSize (σ k))).2 (k + 1)).edges := he
    rcases List.mem_append.mp he2 with hmem | hmem
    · obtain ⟨v, _, rfl⟩ := List.mem_map.mp hmem
      rfl
    · exact ih _ _ e hmem

/-- Every user of every enqueued group is an invitee of an edge emitted in the
same expansion. -/
theorem processGroup_groups_sub (room : Nat) (σ : Nat → Nat) :
    ∀ (g pool : List Nat) (k : Nat),
      ∀ G ∈ (processGroup room σ g pool k).newGroups, ∀ v ∈ G,
        v ∈ (processGroup room σ g pool k).edges.map Buddy.invitee_id := by
  intro g
  induction g with
  | nil => intro pool k G hG; cases hG
  | cons inviter g ih =>
    intro pool k G hG v hv
    have hG2 : G ∈ (if (pop_users pool (batchSize (σ k))).1.isEmpty then []
        else [(pop_users pool (batchSize (σ k))).1]) ++
        (processGroup room σ g (pop_users pool (batchSize (σ k))).2 (k + 1)).newGroups :=
      hG
    show v ∈ ((pop_users pool (batchSize (σ k))).1.map
        (fun u => (⟨room, inviter, u⟩ : Buddy)) ++
        (processGroup room σ g (pop_users pool (batchSize (σ k))).2 (k + 1)).edges).map
          Buddy.invitee_id
    rw [List.map_append]
    have hbatch : (((pop_users pool (batchSize (σ k))).1.map
        (fun u => (⟨room, inviter, u⟩ : Buddy))).map Buddy.invitee_id) =
        (pop_users pool (batchSize (σ k))).1 := by
      induction (pop_users pool (batchSize (σ k))).1 with
      | nil => rfl
      | cons x xs ihx => simp [ihx]
    rw [hbatch]
    rcases List.mem_append.mp hG2 with hmem | hmem
    · by_cases hinv : (pop_users pool (batchSize (σ k))).1.isEmpty
      · rw [if_pos hinv] at hmem
        cases hmem
      · rw [if_neg hinv] at hmem
        rw [List.mem_singleton] at hmem
        subst hmem
        exact List.mem_append_left _ hv
    · exact List.mem_append_right _ (ih _ _ G hmem v hv)

/-- Invitation-chain well-formedness: scanning the edge list left to right,
every inviter is already in the allowed set (initially just the owner), and
each invitee joins the allowed set for the edges after it. -/
def chainOkB : List Nat → List Buddy → Bool
  | _, [] => true
  | allowed, e :: es =>
    decide (e.inviter_id ∈ allowed) && chainOkB (e.invitee_id :: allowed) es

/-- Splitting a chain check over an append. -/
theorem chainOkB_append : ∀ (xs ys : List Buddy) (A : List Nat),
    chainOkB A (xs ++ ys) =
      (chainOkB A xs && chainOkB ((xs.map Buddy.invitee_id).reverse ++ A) ys) := by
  intro xs
  induction xs with
  | nil => intro ys A; simp [chainOkB]
  | cons e xs ih =>
    intro ys A
    show (decide (e.inviter_id ∈ A) && chainOkB (e.invitee_id :: A) (xs ++ ys)) =
      ((decide (e.inviter_id ∈ A) && chainOkB (e.invitee_id :: A) xs) &&
        chainOkB (((e :: xs).map Buddy.invitee_id).reverse ++ A) ys)
    rw [ih ys (e.invitee_id :: A)]
    have hA : (xs.map Buddy.invitee_id).reverse ++ (e.invitee_id :: A) =
        ((e :: xs).map Buddy.invitee_id).reverse ++ A := by
      simp
    rw [hA, Bool.and_assoc]

/-- Chain checks are monotone in the allowed set. -/
theorem chainOkB_mono : ∀ (es : List Buddy) (A A2 : List Nat), A ⊆ A2 →
    chainOkB A es = true → chainOkB A2 es = true := by
  intro es
  induction es with
  | nil => intro A A2 _ _; rfl
  | cons e es ih =>
    intro A A2 hsub h
    have h2 : (decide (e.inviter_id ∈ A) && chainOkB (e.invitee_id :: A) es) = true := h
    rw [Bool.and_eq_true] at h2
    show (decide (e.inviter_id ∈ A2) && chainOkB (e.invitee_id :: A2) es) = true
    rw [Bool.and_eq_true]
    refine ⟨decide_eq_true (hsub (of_decide_eq_true h2.1)), ?_⟩
    exact ih _ _ (List.cons_subset_cons _ hsub) h2.2

/-- A batch of edges from a single allowed inviter is chain-correct. -/
theorem chainOkB_batch (room inviter : Nat) :
    ∀ (inv A : List Nat), inviter ∈ A →
      chainOkB A (inv.map (fun v => (⟨room, inviter, v⟩ : Buddy))) = true := by
  intro inv
  induction inv with
  | nil => intro A _; rfl
  | cons v inv ih =>
    intro A hA
    show (decide (inviter ∈ A) &&
      chainOkB (v :: A) (inv.map (fun v => (⟨room, inviter, v⟩ : Buddy)))) = true
    rw [Bool.and_eq_true]
    exact ⟨decide_eq_true hA, ih _ (List.mem_cons_of_mem _ hA)⟩

/-- The edges of one group expansion are chain-correct for any allowed set
containing the whole group. -/
theorem processGroup_chainOk (room : Nat) (σ : Nat → Nat) :
    ∀ (g pool : List Nat) (k : Nat) (A : List Nat), (∀ u ∈ g, u ∈ A) →
      chainOkB A (processGroup room σ g pool k).edges = true := by
  intro g
  induction g with
  | nil => intro pool k A _; rfl
  | cons inviter g ih =>
    intro pool k A hA
    show chainOkB A ((pop_users pool (batchSize (σ k))).1.map
        (fun v => (⟨room, inviter, v⟩ : Buddy)) ++
        (processGroup room σ g (pop_users pool (batchSize (σ k))).2 (k + 1)).edges) = true
    rw [chainOkB_append, Bool.and_eq_true]
    constructor
    · exact chainOkB_batch room inviter _ A (hA inviter (List.mem_cons_self _ _))
    · apply ih
      intro u hu
      exact List.mem_append_right _ (hA u (List.mem_cons_of_mem _ hu))

/-- Sum of the queue measure over an append. -/
theorem queueMeasure_append (q1 q2 : List (List Nat)) :
    queueMeasure (q1 ++ q2) = queueMeasure q1 + queueMeasure q2 := by
  unfold queueMeasure
  rw [List.map_append, List.sum_append, List.length_append]
  omega

/-- Queue measure of a cons. -/
theorem queueMeasure_cons (g : List Nat) (q : List (List Nat)) :
    queueMeasure (g :: q) = g.length + 1 + queueMeasure q := by
  unfold queueMeasure
  rw [List.map_cons, List.sum_cons, List.length_cons]
  omega

/-- The invitees produced by the breadth-first loop are a permutation of the
pool, provided every pending group is non-empty and the queue is non-empty:
the loop always drains the pool completely. -/
theorem buddyLoop_invitees (room : Nat) (σ : Nat → Nat) :
    ∀ (n : Nat) (q : List (List Nat)) (pool : List Nat) (k : Nat),
      pool.length + queueMeasure q ≤ n → (∀ G ∈ q, G ≠ []) → q ≠ [] →
      ((buddyLoop room σ q pool k).map Buddy.invitee_id).Perm pool := by
  intro n
  induction n with
  | zero =>
    intro q pool k hm hne hq
    exfalso
    cases q with
    | nil => exact hq rfl
    | cons g q => rw [queueMeasure_cons] at hm; omega
  | succ n ih =>
    intro q pool k hm hne hq
    cases q with
    | nil => exact absurd rfl hq
    | cons g q =>
      rw [buddyLoop]
      rw [List.map_append]
      by_cases hq2 : q ++ (processGroup room σ g pool k).newGroups = []
      · rcases List.append_eq_nil.mp hq2 with ⟨hqnil, hgnil⟩
        have hpool : pool = [] := by
          cases hg : g with
          | nil => exact absurd hg (hne g (List.mem_cons_self _ _))
          | cons inviter g2 =>
            exact processGroup_pool_empty room σ inviter g2 pool k (hg ▸ hgnil)
        subst hpool
        have hperm := processGroup_perm room σ g [] k
        have hedges : (processGroup room σ g [] k).edges.map Buddy.invitee_id = [] :=
          (List.append_eq_nil.mp (List.Perm.eq_nil hperm)).1
        rw [hq2, hedges]
        rw [buddyLoop]
        exact List.Perm.refl _
      · have hmeas : (processGroup room σ g pool k).pool.length +
            queueMeasure (q ++ (processGroup room σ g pool k).newGroups) ≤ n := by
          rw [queueMeasure_append]
          have hpg := processGroup_measure room σ g pool k
          rw [queueMeasure_cons] at hm
          omega
        have hrec := ih (q ++ (processGroup room σ g pool k).newGroups)
          (processGroup room σ g pool k).pool (processGroup room σ g pool k).k
          hmeas
          (by
            intro G hG
            rcases List.mem_append.mp hG with hmem | hmem
            · exact hne G (List.mem_cons_of_mem _ hmem)
            · exact processGroup_groups_ne room σ g pool k G hmem)
          hq2
        exact (List.Perm.append_left _ hrec).trans (processGroup_perm room σ g pool k)

/-- Every edge produced by the loop carries the room id. -/
theorem buddyLoop_room (room : Nat) (σ : Nat → Nat) :
    ∀ (n : Nat) (q : List (List Nat)) (pool : List Nat) (k : Nat),
      pool.length + queueMeasure q ≤ n →
      ∀ e ∈ buddyLoop room σ q pool k, e.room_id = room := by
  intro n
  induction n with
  | zero =>
    intro q pool k hm e he
    cases q with
    | nil => rw [buddyLoop] at he; cases he
    | cons g q => rw [queueMeasure_cons] at hm; omega
  | succ n ih =>
    intro q pool k hm e he
    cases q with
    | nil => rw [buddyLoop] at he; cases he
    | cons g q =>
      rw [buddyLoop] at he
      rcases List.mem_append.mp he with hmem | hmem
      · exact processGroup_room room σ g pool k e hmem
      · refine ih (q ++ (processGroup room σ g pool k).newGroups)
          (processGroup room σ g pool k).pool (processGroup room σ g pool k).k ?_ e hmem
        rw [queueMeasure_append]
        have hpg := processGroup_measure room σ g pool k
        rw [queueMeasure_cons] at hm
        omega

/-- The edge sequence produced by the loop is chain-correct for any allowed
set containing every pending group. -/
theorem buddyLoop_chainOk (room : Nat) (σ : Nat → Nat) :
    ∀ (n : Nat) (q : List (List Nat)) (pool : List Nat) (k : Nat) (A : List Nat),
      pool.length + queueMeasure q ≤ n →
      (∀ G ∈ q, ∀ u ∈ G, u ∈ A) →
      chainOkB A (buddyLoop room σ q pool k) = true := by
  intro n
  induction n with
  | zero =>
    intro q pool k A hm hq
    cases q with
    | nil => rw [buddyLoop]; rfl
    | cons g q => rw [queueMeasure_cons] at hm; omega
  | succ n ih =>
    intro q pool k A hm hq
    cases q with
    | nil => rw [buddyLoop]; rfl
    | cons g q =>
      rw [buddyLoop]
      rw [chainOkB_append, Bool.and_eq_true]
      constructor
      · exact processGroup_chainOk room σ g pool k A (hq g (List.mem_cons_self _ _))
      · apply ih
        · rw [queueMeasure_append]
          have hpg := processGroup_measure room σ g pool k
          rw [queueMeasure_cons] at hm
          omega
        · intro G hG u hu
          rcases List.mem_append.mp hG with hmem | hmem
          · exact List.mem_append_right _ (hq G (List.mem_cons_of_mem _ hmem) u hu)
          · exact List.mem_append_left _ (List.mem_reverse.mpr
              (processGroup_groups_sub room σ g pool k G hmem u hu))

/-- From a chain-correct edge list, each edge's inviter is either initially
allowed or the invitee of a strictly earlier edge. -/
theorem chainOkB_get : ∀ (es : List Buddy) (A : List Nat),
    chainOkB A es = true → ∀ (i : Nat) (h : i < es.length),
      (es.get ⟨i, h⟩).inviter_id ∈ A ∨
      (es.get ⟨i, h⟩).inviter_id ∈ (es.take i).map Buddy.invitee_id := by
  intro es
  induction es with
  | nil => intro A _ i h; exact absurd h (by simp)
  | cons e es ih =>
    intro A hchain i h
    have h2 : (decide (e.inviter_id ∈ A) && chainOkB (e.invitee_id :: A) es) = true :=
      hchain
    rw [Bool.and_eq_true] at h2
    cases i with
    | zero => exact Or.inl (of_decide_eq_true h2.1)
    | succ i =>
      have hlen : i < es.length := by
        rw [List.length_cons] at h
        omega
      have hrec := ih (e.invitee_id :: A) h2.2 i hlen
      have hget : (e :: es).get ⟨i + 1, h⟩ = es.get ⟨i, hlen⟩ := rfl
      have htake : ((e :: es).take (i + 1)).map Buddy.invitee_id =
          e.invitee_id :: (es.take i).map Buddy.invitee_id := rfl
      rw [hget, htake]
      rcases hrec with hmem | hmem
      · rcases List.mem_cons.mp hmem with heq | hmem2
        · exact Or.inr (heq ▸ List.mem_cons_self _ _)
        · exact Or.inl hmem2
      · exact Or.inr (List.mem_cons_of_mem _ hmem)

/-- Membership in a take bounds the index of first occurrence. -/
theorem indexOf_lt_of_mem_take : ∀ (l : List Nat) (v i : Nat),
    v ∈ l.take i → l.indexOf v < i := by
  intro l
  induction l with
  | nil => intro v i h; simp at h
  | cons x xs ih =>
    intro v i h
    cases i with
    | zero => simp at h
    | succ i =>
      rw [List.take_succ_cons] at h
      by_cases hvx : v = x
      · subst hvx
        rw [List.indexOf_cons_self]
        omega
      · rcases List.mem_cons.mp h with heq | hmem
        · exact absurd heq hvx
        · rw [List.indexOf_cons_ne _ (fun hxv => hvx hxv.symm)]
          have := ih v i hmem
          omega

/-- Rank of a user inside an edge list: owner-like users (never invited) get
rank 0, the i-th distinct invitee gets rank i+1. -/
def rankIn (es : List Buddy) (v : Nat) : Nat :=
  if v ∈ es.map Buddy.invitee_id then (es.map Buddy.invitee_id).indexOf v + 1 else 0

/-- A chain-correct edge list with distinct invitees that never re-invites an
initially-allowed user admits a strict rank function: each edge goes from a
lower-ranked user to a higher-ranked one, so the edge set has no cycles. -/
theorem chainOk_rank (es : List Buddy) (owner : Nat)
    (hchain : chainOkB [owner] es = true)
    (hnd : (es.map Buddy.invitee_id).Nodup)
    (howner : owner ∉ es.map Buddy.invitee_id) :
    ∀ e ∈ es, rankIn es e.inviter_id < rankIn es e.invitee_id := by
  intro e he
  obtain ⟨i, hi, rfl⟩ := List.getElem_of_mem he
  have hifin : i < es.length := hi
  have hgetfin : es[i] = es.get ⟨i, hifin⟩ := rfl
  have hinv_mem : es[i].invitee_id ∈ es.map Buddy.invitee_id :=
    List.mem_map_of_mem _ (List.getElem_mem hifin)
  have hinv_idx : (es.map Buddy.invitee_id).indexOf es[i].invitee_id = i := by
    have hmaplen : i < (es.map Buddy.invitee_id).length := by
      rw [List.length_map]; exact hifin
    have hmapget : (es.map Buddy.invitee_id)[i] = es[i].invitee_id := by
      rw [List.getElem_map]
    have hidxlt : (es.map Buddy.invitee_id).indexOf es[i].invitee_id <
        (es.map Buddy.invitee_id).length := List.indexOf_lt_length.mpr hinv_mem
    have := List.getElem_indexOf hidxlt
    have heq : (es.map Buddy.invitee_id)[(es.map Buddy.invitee_id).indexOf
        es[i].invitee_id] = (es.map Buddy.invitee_id)[i] := by
      rw [this, hmapget]
    exact (hnd.getElem_inj_iff).mp heq
  have hrank_inv : rankIn es es[i].invitee_id = i + 1 := by
    unfold rankIn
    rw [if_pos hinv_mem, hinv_idx]
  rw [hrank_inv]
  have hstep := chainOkB_get es [owner] hchain i hifin
  rw [← hgetfin] at hstep
  rcases hstep with hmem | hmem
  · rw [List.mem_singleton] at hmem
    unfold rankIn
    rw [hmem, if_neg howner]
    omega
  · have hmem2 : es[i].inviter_id ∈ (es.map Buddy.invitee_id).take i := by
      rw [← List.map_take]
      exact hmem
    have hidx := indexOf_lt_of_mem_take (es.map Buddy.invitee_id) es[i].inviter_id i hmem2
    have hmem3 : es[i].inviter_id ∈ es.map Buddy.invitee_id :=
      List.mem_of_mem_take hmem2
    unfold rankIn
    rw [if_pos hmem3]
    omega

/-- C5: for every room, the buddy edges form a tree rooted at the owner
spanning all non-owner members (for a duplicate-free shuffled pool not
containing the owner): the invitees are exactly the pool (each member is
invited exactly once and never twice), the owner is never an invitee, every
edge carries the room id, every inviter is the owner or the invitee of an
earlier edge, and a strict rank function orders all edges, so there are no
cycles. -/
theorem buddy_tree (room owner : Nat) (pool : List Nat) (σ : Nat → Nat)
    (hnd : pool.Nodup) (howner : owner ∉ pool) :
    ((generate_buddies_room room owner pool σ).map Buddy.invitee_id).Perm pool ∧
    (∀ v ∈ pool,
      ((generate_buddies_room room owner pool σ).map Buddy.invitee_id).count v = 1) ∧
    ((generate_buddies_room room owner pool σ).map Buddy.invitee_id).Nodup ∧
    (∀ e ∈ generate_buddies_room room owner pool σ, e.invitee_id ≠ owner) ∧
    (∀ e ∈ generate_buddies_room room owner pool σ, e.room_id = room) ∧
    chainOkB [owner] (generate_buddies_room room owner pool σ) = true ∧
    (∃ rank : Nat → Nat, ∀ e ∈ generate_buddies_room room owner pool σ,
      rank e.inviter_id < rank e.invitee_id) := by
  have hperm : ((generate_buddies_room room owner pool σ).map Buddy.invitee_id).Perm
      pool :=
    buddyLoop_invitees room σ (pool.length + queueMeasure [[owner]]) [[owner]] pool 0
      (Nat.le_refl _)
      (by
        intro G hG
        rw [List.mem_singleton] at hG
        subst hG
        exact List.cons_ne_nil _ _)
      (List.cons_ne_nil _ _)
  have hnodup : ((generate_buddies_room room owner pool σ).map Buddy.invitee_id).Nodup :=
    hperm.nodup_iff.mpr hnd
  have hchain : chainOkB [owner] (generate_buddies_room room owner pool σ) = true :=
    buddyLoop_chainOk room σ (pool.length + queueMeasure [[owner]]) [[owner]] pool 0
      [owner] (Nat.le_refl _)
      (by
        intro G hG u hu
        rw [List.mem_singleton] at hG
        subst hG
        exact hu)
  have hnoowner : owner ∉ (generate_buddies_room room owner pool σ).map
      Buddy.invitee_id := fun hmem => howner (hperm.mem_iff.mp hmem)
  refine ⟨hperm, ?_, hnodup, ?_, ?_, hchain, ?_⟩
  · intro v hv
    rw [hperm.count_eq]
    exact List.count_eq_one_of_mem hnd hv
  · intro e he hcontra
    apply hnoowner
    nth_rewrite 2 [← hcontra]
    exact List.mem_map_of_mem _ he
  · exact buddyLoop_room room σ (pool.length + queueMeasure [[owner]]) [[owner]] pool 0
      (Nat.le_refl _)
  · exact ⟨rankIn (generate_buddies_room room owner pool σ),
      chainOk_rank _ owner hchain hnodup hnoowner⟩

/-- Concrete instantiation of the buddy-tree theorem on the pool [1, 2, 3]. -/
theorem buddy_tree_witness :
    ([1, 2, 3] : List Nat).Nodup ∧ (0 : Nat) ∉ ([1, 2, 3] : List Nat) ∧
    (((generate_buddies_room 5 0 [1, 2, 3] (fun _ => 0)).map
        Buddy.invitee_id).Perm [1, 2, 3] ∧
     (∀ v ∈ ([1, 2, 3] : List Nat),
       ((generate_buddies_room 5 0 [1, 2, 3] (fun _ => 0)).map
         Buddy.invitee_id).count v = 1) ∧
     ((generate_buddies_room 5 0 [1, 2, 3] (fun _ => 0)).map Buddy.invitee_id).Nodup ∧
     (∀ e ∈ generate_buddies_room 5 0 [1, 2, 3] (fun _ => 0), e.invitee_id ≠ 0) ∧
     (∀ e ∈ generate_buddies_room 5 0 [1, 2, 3] (fun _ => 0), e.room_id = 5) ∧
     chainOkB [0] (generate_buddies_room 5 0 [1, 2, 3] (fun _ => 0)) = true ∧
     (∃ rank : Nat → Nat, ∀ e ∈ generate_buddies_room 5 0 [1, 2, 3] (fun _ => 0),
       rank e.inviter_id < rank e.invitee_id)) :=
  ⟨by decide, by decide, buddy_tree 5 0 [1, 2, 3] (fun _ => 0) (by decide) (by decide)⟩

/-- Fuel-indexed version of the breadth-first expansion loop, used to state
termination: `none` means the fuel ran out with pending groups left. -/
def buddyLoopFuel (room : Nat) (σ : Nat → Nat) :
    Nat → List (List Nat) → List Nat → Nat → Option (List Buddy)
  | _, [], _, _ => some []
  | 0, _ :: _, _, _ => none
  | fuel + 1, g :: q, pool, k =>
    (buddyLoopFuel room σ fuel (q ++ (processGroup room σ g pool k).newGroups)
        (processGroup room σ g pool k).pool
        (processGroup room σ g pool k).k).map
      (fun rest => (processGroup room σ g pool k).edges ++ rest)

/-- With fuel at least the pool-plus-queue measure, the fuel-indexed loop
finishes and agrees with the loop. -/
theorem buddyLoopFuel_adequate (room : Nat) (σ : Nat → Nat) :
    ∀ (n : Nat) (q : List (List Nat)) (pool : List Nat) (k : Nat),
      pool.length + queueMeasure q ≤ n →
      buddyLoopFuel room σ n q pool k = some (buddyLoop room σ q pool k) := by
  intro n
  induction n with
  | zero =>
    intro q pool k hm
    cases q with
    | nil => rw [buddyLoop]; rfl
    | cons g q => rw [queueMeasure_cons] at hm; omega
  | succ n ih =>
    intro q pool k hm
    cases q with
    | nil => rw [buddyLoop]; rfl
    | cons g q =>
      show (buddyLoopFuel room σ n (q ++ (processGroup room σ g pool k).newGroups)
          (processGroup room σ g pool k).pool
          (processGroup room σ g pool k).k).map
        (fun rest => (processGroup room σ g pool k).edges ++ rest) =
        some (buddyLoop room σ (g :: q) pool k)
      have hmeas : (processGroup room σ g pool k).pool.length +
          queueMeasure (q ++ (processGroup room σ g pool k).newGroups) ≤ n := by
        rw [queueMeasure_append]
        have hpg := processGroup_measure room σ g pool k
        rw [queueMeasure_cons] at hm
        omega
      rw [ih _ _ _ hmeas]
      rw [buddyLoop]
      rfl

/-- C7: the breadth-first expansion of `generate_buddies` terminates for every
finite membership pool and every sequence of batch-size draws: some finite
fuel (the pool size plus the queue measure) suffices for the fuel-indexed loop
to return, and its result is the loop's output. -/
theorem buddy_loop_terminates :
    ∀ (room owner : Nat) (pool : List Nat) (σ : Nat → Nat),
      ∃ fuel : Nat, buddyLoopFuel room σ fuel [[owner]] pool 0 =
        some (generate_buddies_room room owner pool σ) :=
  fun room owner pool σ =>
    ⟨pool.length + queueMeasure [[owner]],
     buddyLoopFuel_adequate room σ _ [[owner]] pool 0 (Nat.le_refl _)⟩
